import Mathlib

/-!
Verification development for the clickup-reddit pipeline.

Shallow embedding of the core of the repository:
* the ordered concurrent emission machinery of `CommentAnalyzer.analyze`
  (src/analysis/commentAnalyzer.ts),
* cursor pagination of `PullpushClient.fetchRange` / `fetchAll` / `fetchLive`
  (src/clients/pullpush.ts),
* `splitIntoMonthlyRanges` and `toUnixSeconds` (src/utils/time.ts),
* the canonical checksum `checksumFrom` (src/utils/hash.ts),
* `LlmCache.getOrCompute` (src/analysis/llmCache.ts),
* `csvEscape` / `CsvStreamWriter.writeRow` (src/csv/writer.ts).
-/

set_option maxHeartbeats 1000000

namespace ClickupReddit

/-! ## Ordered concurrent pipeline (CommentAnalyzer.analyze)

`analyze` keeps a `pending` map from input index to classification, a
`nextEmitIndex` counter, and an `emitIfReady` drain that, while the map
contains `nextEmitIndex`, removes it, appends it to the collected list /
streams it to the `onClassification` callback, and increments the counter.
Each enrichment task, upon completion of index `i`, stores its result under
`i` and runs the drain.  We model a run as the fold of these completion
events over the completion order, which may be an arbitrary permutation of
the input indices; `res i` is the classification computed for input `i`,
and `emitted` records the observable emission sequence (both the streaming
callback arguments and the collected list, which the code appends in the
same drain step). -/

structure PipelineState (α : Type) where
  pending : List Nat
  nextEmitIndex : Nat
  emitted : List α
deriving Repr, DecidableEq

/-- The `emitIfReady` drain of `CommentAnalyzer.analyze`: while the pending
map contains the next expected index, emit it and advance. -/
def emitIfReady {α : Type} (res : Nat → α) (st : PipelineState α) : PipelineState α :=
  if h : st.nextEmitIndex ∈ st.pending then
    emitIfReady res
      { pending := st.pending.erase st.nextEmitIndex
        nextEmitIndex := st.nextEmitIndex + 1
        emitted := st.emitted ++ [res st.nextEmitIndex] }
  else st
termination_by st.pending.length
decreasing_by
  have h1 := List.length_erase_of_mem h
  have h2 : 0 < st.pending.length := List.length_pos_of_mem h
  omega

/-- Completion event for index `i`: store the result in the pending map,
then run the drain (the body of the task passed to the `p-limit` limiter). -/
def completeTask {α : Type} (res : Nat → α) (st : PipelineState α) (i : Nat) :
    PipelineState α :=
  emitIfReady res
    { pending := i :: st.pending
      nextEmitIndex := st.nextEmitIndex
      emitted := st.emitted }

/-- A full pipeline run: completion events arrive in the order given by
`order` (any interleaving the concurrency limiter may produce). -/
def runPipeline {α : Type} (res : Nat → α) (order : List Nat) : PipelineState α :=
  order.foldl (completeTask res) { pending := [], nextEmitIndex := 0, emitted := [] }

/-! ## Cursor pagination (PullpushClient.fetchRange, src/clients/pullpush.ts)

`fetchRange` paginates a sub-range `[start, end)` with an integer epoch
cursor (all epochs produced by `splitIntoMonthlyRanges` and by the comment
mapping are floored to integers, so `Math.floor(cursor)` is the cursor
itself and we model cursors as `Nat`).  The page contents are abstracted as
an oracle `page : Nat → List RedditComment` giving the mapped items the API
returns for a request with `after = cursor` (the other query parameters are
fixed within a sub-range). -/

/-- `RedditComment` from src/types/index.ts, as produced by the mapping in
`fetchRange` (`createdUtc` is `Math.floor(comment.created_utc)`, an
integer). -/
structure RedditComment where
  id : String
  body : String
  createdUtc : Int
  permalink : String
  subreddit : String
deriving Repr, DecidableEq

/-- `MIN_CURSOR_INCREMENT` (src/clients/pullpush.ts line 37). -/
def MIN_CURSOR_INCREMENT : Int := 1

/-- The cursor update of `fetchRange` (lines 143-148): if the last item's
timestamp does not exceed `after`, advance by `MIN_CURSOR_INCREMENT`,
otherwise jump to the last timestamp. -/
def nextCursor (after : Int) (lastTimestamp : Int) : Int :=
  if lastTimestamp ≤ after then after + MIN_CURSOR_INCREMENT else lastTimestamp

/-- `mapped[mapped.length - 1]?.createdUtc ?? after`. -/
def lastCreated (mapped : List RedditComment) (after : Int) : Int :=
  match mapped.getLast? with
  | some c => c.createdUtc
  | none => after

/-- The `while (cursor < range.end)` pagination loop of `fetchRange`,
accumulating the mapped items of every page; an empty page breaks out. -/
def fetchRangeGo (page : Int → List RedditComment) (endE : Int) (cursor : Int) :
    List RedditComment :=
  if cursor < endE then
    if page cursor = [] then []
    else
      page cursor
        ++ fetchRangeGo page endE (nextCursor cursor (lastCreated (page cursor) cursor))
  else []
termination_by (endE - cursor).toNat
decreasing_by
  simp only [nextCursor, MIN_CURSOR_INCREMENT]
  split <;> omega

/-- Number of iterations the `fetchRange` pagination loop executes. -/
def fetchRangeIters (page : Int → List RedditComment) (endE : Int) (cursor : Int) :
    Nat :=
  if cursor < endE then
    if page cursor = [] then 1
    else
      1 + fetchRangeIters page endE (nextCursor cursor (lastCreated (page cursor) cursor))
  else 0
termination_by (endE - cursor).toNat
decreasing_by
  simp only [nextCursor, MIN_CURSOR_INCREMENT]
  split <;> omega

/-- `fetchRange` on the sub-range `[startE, endE)`: the loop started at
`cursor = range.start`. -/
def fetchRange (page : Int → List RedditComment) (startE endE : Int) :
    List RedditComment :=
  fetchRangeGo page endE startE

/-! ## Calendar arithmetic (splitIntoMonthlyRanges, src/utils/time.ts)

`splitIntoMonthlyRanges` walks the range with JavaScript `Date` objects:
`addMonths` reads the UTC month, adds `monthsPerBatch`, and lets `Date`
normalize the result (ECMA-262 `MakeDay`: month overflow rolls into the
year, day-of-month overflow rolls into the following month).  All inputs
are integer epoch seconds (`toUnixSeconds` floors), so every `getTime()`
is an exact multiple of 1000 ms and we model time as integer seconds,
split as `86400 * day + secondOfDay`.  The ECMA date functions
(`DayFromYear`, `DaysInYear`, `DayFromMonth`, `MonthFromTime`,
`DateFromTime`, `MakeDay`) are embedded directly; `YearFromTime`, which
ECMA specifies as the largest year whose first day is at most the given
day, is embedded by the standard exact era-decomposition formulas. -/

/-- ECMA `DaysInYear` leap test (also JavaScript's Gregorian rule). -/
def isLeapYear (y : Int) : Bool :=
  (y % 4 == 0 && y % 100 != 0) || y % 400 == 0

/-- One extra day in leap years. -/
def leapDays (l : Bool) : Int :=
  if l then 1 else 0

/-- ECMA `DayFromYear`: the day number of 1 January of year `y`. -/
def dayFromYear (y : Int) : Int :=
  365 * (y - 1970) + (y - 1969) / 4 - (y - 1901) / 100 + (y - 1601) / 400

/-- ECMA `DayFromMonth`: days in year `y` before month `m` (0-based),
given the leap bit of `y`. -/
def dayFromMonth (m : Int) (l : Bool) : Int :=
  (if m = 0 then 0 else if m = 1 then 31 else if m = 2 then 59
   else if m = 3 then 90 else if m = 4 then 120 else if m = 5 then 151
   else if m = 6 then 181 else if m = 7 then 212 else if m = 8 then 243
   else if m = 9 then 273 else if m = 10 then 304 else 334)
  + (if 2 ≤ m then leapDays l else 0)

/-- ECMA `YearFromTime` on a day number: the year containing day `N`,
computed by exact era decomposition (era = 400 Gregorian years
= 146097 days). -/
def yearOfDay (N : Int) : Int :=
  let z := N + 719468
  let era := z / 146097
  let doe := z - era * 146097
  let yoe := (doe - doe / 1460 + doe / 36524 - doe / 146096) / 365
  let y := yoe + era * 400
  let doy := doe - (365 * yoe + yoe / 4 - yoe / 100)
  let mp := (5 * doy + 2) / 153
  if 10 ≤ mp then y + 1 else y

/-- ECMA `MonthFromTime` from `DayWithinYear` and the leap bit. -/
def monthFromDayWithinYear (d : Int) (l : Bool) : Int :=
  if d < 31 then 0
  else if d < 59 + leapDays l then 1
  else if d < 90 + leapDays l then 2
  else if d < 120 + leapDays l then 3
  else if d < 151 + leapDays l then 4
  else if d < 181 + leapDays l then 5
  else if d < 212 + leapDays l then 6
  else if d < 243 + leapDays l then 7
  else if d < 273 + leapDays l then 8
  else if d < 304 + leapDays l then 9
  else if d < 334 + leapDays l then 10
  else 11

/-- `(YearFromTime, MonthFromTime, DateFromTime)` of a day number. -/
def yearMonthDayOfDay (N : Int) : Int × Int × Int :=
  let y := yearOfDay N
  let dwy := N - dayFromYear y
  let l := isLeapYear y
  let m := monthFromDayWithinYear dwy l
  (y, m, dwy - dayFromMonth m l + 1)

/-- ECMA `MakeDay year month date`: month overflow is folded into the
year (floor/modulo 12) and the result is the day number of the first of
that month plus `date - 1` (day-of-month overflow thus rolls forward). -/
def makeDay (year month date : Int) : Int :=
  dayFromYear (year + month / 12)
    + dayFromMonth (month % 12) (isLeapYear (year + month / 12))
    + date - 1

/-- Day number of the first day of linear month `M` (`M = 12 * year +
month`). -/
def firstOfMonthDay (M : Int) : Int :=
  dayFromYear (M / 12) + dayFromMonth (M % 12) (isLeapYear (M / 12))

/-- The `addMonths` helper of src/utils/time.ts on an epoch-second time
value: `setUTCMonth(getUTCMonth() + months)` with the time of day
preserved. -/
def addMonthsEpoch (t : Int) (months : Int) : Int :=
  let N := t / 86400
  let sod := t % 86400
  let ymd := yearMonthDayOfDay N
  86400 * makeDay ymd.1 (ymd.2.1 + months) ymd.2.2 + sod

/-- The `while (cursor < endDate)` loop of `splitIntoMonthlyRanges`
(src/utils/time.ts lines 49-62): each chunk ends at `addMonths(cursor, m)`
bounded by `endDate`, and the loop breaks if a chunk would be empty. -/
def splitGo (endEpoch monthsPerBatch : Int) (cursor : Int) : List (Int × Int) :=
  if cursor < endEpoch then
    if min (addMonthsEpoch cursor monthsPerBatch) endEpoch ≤ cursor then []
    else
      (cursor, min (addMonthsEpoch cursor monthsPerBatch) endEpoch)
        :: splitGo endEpoch monthsPerBatch
            (min (addMonthsEpoch cursor monthsPerBatch) endEpoch)
  else []
termination_by (endEpoch - cursor).toNat
decreasing_by
  have hle := min_le_right (addMonthsEpoch cursor monthsPerBatch) endEpoch
  omega

/-- `splitIntoMonthlyRanges` (src/utils/time.ts lines 32-73): validate
`monthsPerBatch`, return `[]` for an empty range, run the loop, then apply
the trailing fixup that appends any remainder up to `endEpoch`. -/
def splitIntoMonthlyRanges (startEpoch endEpoch monthsPerBatch : Int) :
    Except String (List (Int × Int)) :=
  if monthsPerBatch ≤ 0 then
    .error "monthsPerBatch must be greater than 0"
  else if endEpoch ≤ startEpoch then
    .ok []
  else
    .ok (
      match splitGo endEpoch monthsPerBatch startEpoch with
      | [] => if startEpoch < endEpoch then [(startEpoch, endEpoch)] else []
      | r :: rs =>
        match (r :: rs).getLast? with
        | none => r :: rs
        | some last =>
          if last.2 < endEpoch then (r :: rs) ++ [(last.2, endEpoch)] else r :: rs)

/-! ## Deduplicated ascending fetch (PullpushClient.fetchAll)

`fetchAll` merges every sub-range's comments into a `Map` keyed by comment
id (`Map.set` replaces the value of an existing key in place and appends
new keys), then sorts the values ascending by `createdUtc` (a stable
numeric-comparator `Array.prototype.sort`, modelled as a stable merge
sort).  The page oracle takes the sub-range `before` bound and the cursor,
covering any source behaviour. -/

/-- `dedup.set(comment.id, comment)`. -/
def dedupInsert (acc : List RedditComment) (c : RedditComment) :
    List RedditComment :=
  if acc.any (fun x => x.id = c.id) then
    acc.map (fun x => if x.id = c.id then c else x)
  else
    acc ++ [c]

/-- The dedup map accumulated over all fetched comments, in insertion
order. -/
def dedupById (comments : List RedditComment) : List RedditComment :=
  comments.foldl dedupInsert []

/-- `[...dedup.values()].sort((a, b) => a.createdUtc - b.createdUtc)`. -/
def sortByCreated (l : List RedditComment) : List RedditComment :=
  l.mergeSort (fun a b => decide (a.createdUtc ≤ b.createdUtc))

/-- `fetchAll` (src/clients/pullpush.ts lines 64-83): split the global
range, fetch each sub-range, dedup by id, sort ascending by time. -/
def fetchAll (page : Int → Int → List RedditComment)
    (startEpoch endEpoch monthsPerBatch : Int) :
    Except String (List RedditComment) :=
  (splitIntoMonthlyRanges startEpoch endEpoch monthsPerBatch).map (fun ranges =>
    sortByCreated (dedupById
      (ranges.foldl (fun acc r => acc ++ fetchRange (page r.2) r.1 r.2) [])))

/-! ## Canonical checksum (checksumFrom, src/utils/hash.ts)

`canonicalize` serializes an arbitrary JSON-like value, sorting object
entries by key; `checksumFrom` is the sha256 hex digest of that string.  We
model the digest by the canonical serialization itself: equal
serializations yield equal digests, and the digest is injective modulo hash
collisions, which the specification sets aside.  The JavaScript
`localeCompare` comparator is modelled as the lexicographic order on
strings (a total order agreeing with `localeCompare` on the ASCII keys this
program hashes), and the stable `Array.prototype.sort` as a stable merge
sort.  Because the comparator looks only at keys, stably sorting the
entries and then serializing each entry equals serializing each entry and
then stably sorting the serialized pairs by key; the model uses the latter
form, which Lean's termination checker accepts directly. -/

/-- JSON-like values (`unknown` inputs of `canonicalize`); numbers are
modelled as integers. -/
inductive JValue where
  | null : JValue
  | bool (b : Bool) : JValue
  | num (n : Int) : JValue
  | str (s : String) : JValue
  | arr (items : List JValue) : JValue
  | obj (fields : List (String × JValue)) : JValue
deriving Repr

/-- `JSON.stringify` escaping of one character inside a string literal
(the escapes relevant to this development). -/
def jsonEscapeChar (c : Char) : String :=
  if c = '"' then "\\\""
  else if c = '\\' then "\\\\"
  else if c = '\n' then "\\n"
  else if c = '\r' then "\\r"
  else if c = '\t' then "\\t"
  else String.singleton c

/-- `JSON.stringify` of a string value. -/
def jsonQuote (s : String) : String :=
  "\"" ++ String.join (s.data.map jsonEscapeChar) ++ "\""

/-- `.join(',')`. -/
def joinComma : List String → String
  | [] => ""
  | [s] => s
  | s :: rest => s ++ "," ++ joinComma rest

/-- Key comparison used for object entries: `a.localeCompare(b)` modelled
as lexicographic string order. -/
def keyLE (p q : String × String) : Bool :=
  decide (p.1 ≤ q.1)

/-- One serialized object entry `"key":canonical`. -/
def renderEntry (p : String × String) : String :=
  jsonQuote p.1 ++ ":" ++ p.2

mutual

/-- `canonicalize` from src/utils/hash.ts: primitives via `JSON.stringify`,
arrays element-wise in order, objects entry-wise sorted by key. -/
def canonicalize : JValue → String
  | .null => "null"
  | .bool b => if b then "true" else "false"
  | .num n => toString n
  | .str s => jsonQuote s
  | .arr items => "[" ++ joinComma (canonListJ items) ++ "]"
  | .obj fields =>
      "\x7b" ++ joinComma (((canonPairs fields).mergeSort keyLE).map renderEntry)
        ++ "\x7d"

/-- Canonical serializations of the elements of an array, in order. -/
def canonListJ : List JValue → List String
  | [] => []
  | v :: vs => canonicalize v :: canonListJ vs

/-- `(key, canonical value)` for each object entry, in insertion order. -/
def canonPairs : List (String × JValue) → List (String × String)
  | [] => []
  | (k, v) :: kvs => (k, canonicalize v) :: canonPairs kvs

end

/-- `checksumFrom` (src/utils/hash.ts): the sha256 hex digest of the
canonical serialization, modelled by the serialization itself. -/
def checksumFrom (v : JValue) : String :=
  canonicalize v

/-! ## LLM memoizer (LlmCache.getOrCompute, src/analysis/llmCache.ts)

The cache namespace used by `LlmCache` is fixed (`openai-responses`), so a
cache state is an association list from checksum to stored body.  Bodies
are `JSON.stringify(result)` and a hit returns `JSON.parse(body)`; since
`JSON.parse ∘ JSON.stringify` is the identity on the JSON-safe payloads the
analyzer stores, the model stores the result value itself. -/

/-- Observable outcome of one `getOrCompute` call: the returned value, the
cache contents afterwards, and how many times the compute function was
invoked and the cache written. -/
structure GetOrComputeOutcome where
  result : JValue
  cacheAfter : List (String × JValue)
  computeCalls : Nat
  cacheWrites : Nat
deriving Repr

/-- `LlmCache.getOrCompute(payload, compute)`: hash the payload, return the
deserialized cached body on a hit; on a miss invoke `compute` (abstracted
by the value the inference call would produce), write it, and return it. -/
def getOrCompute (cache : List (String × JValue)) (payload : JValue)
    (compute : JValue) : GetOrComputeOutcome :=
  match cache.lookup (checksumFrom payload) with
  | some body =>
      { result := body, cacheAfter := cache, computeCalls := 0, cacheWrites := 0 }
  | none =>
      { result := compute
        cacheAfter := (checksumFrom payload, compute) :: cache
        computeCalls := 1
        cacheWrites := 1 }

/-! ## Failure semantics of analyze (CommentAnalyzer, src/analysis/commentAnalyzer.ts)

`classifyComment` throws when the inference response carries no parsed
payload; each enrichment task awaits `classifyComment`, so a throw rejects
that task's promise, and `await Promise.all(tasks)` rejects `analyze` with
the first such error.  We model the inference responses by
`parsedResp : Nat → Option ClassificationPayload` (the `output_parsed`
field for each input index) and a run as a monadic fold over the completion
order in the `Except` monad. -/

/-- `ClassificationPayload` (src/analysis/schemas.ts) as used by
`classifyComment`. -/
structure ClassificationPayload where
  category : String
  sentiment : String
  summary : String
  categoryConfidence : String
  sentimentConfidence : String
deriving Repr, DecidableEq

/-- The error `classifyComment` throws for an index whose response has no
parsed payload (lines 217-220 and 225-227), if any. -/
def classifyCommentErr (outputParsed : Option ClassificationPayload) :
    Option String :=
  match outputParsed with
  | none => some "OpenAI response did not include parsed classification output."
  | some _ => none

/-- One completion event in the failing-task model: a task whose
enrichment throws rejects; otherwise it stores its classification and
drains, as in `completeTask`. -/
def taskStep {α : Type} (res : Nat → α) (err : Nat → Option String)
    (st : PipelineState α) (i : Nat) : Except String (PipelineState α) :=
  match err i with
  | some e => Except.error e
  | none => Except.ok (completeTask res st i)

/-- `await Promise.all(tasks)` over the completion order: the first
rejection aborts the whole run. -/
def analyzeTasksRun {α : Type} (res : Nat → α) (err : Nat → Option String)
    (order : List Nat) : Except String (PipelineState α) :=
  order.foldlM (taskStep res err)
    { pending := [], nextEmitIndex := 0, emitted := [] }

/-- The observable result of `analyze`'s classification stage: on success
the final `emitIfReady` drain runs and the collected classifications are
returned; a rejection propagates out of `analyze`. -/
def analyzeResult {α : Type} (res : Nat → α) (err : Nat → Option String)
    (order : List Nat) : Except String (List α) :=
  (analyzeTasksRun res err order).map (fun st => (emitIfReady res st).emitted)

/-! ## Live fetch retry loop (PullpushClient.fetchLive, src/clients/pullpush.ts)

`fetchLive` loops `attempt = 0 .. maxRetries - 1`.  A 429 response waits
`fromHeader * 1000` ms when `Number(response.headers.get('retry-after'))`
is finite, else `retryBackoffMs * (attempt + 1)`, and retries; note that
for an *absent* header `headers.get` returns `null` and `Number(null)` is
`0`, which is finite, so the wait is 0 ms.  A non-OK non-429 response
retries with the linear backoff while `attempt < maxRetries - 1` and
otherwise throws; a successful response writes the raw body to the cache
(not modelled here; the page oracle of `fetchRange` absorbs it) and
returns it.  Falling out of the loop throws the budget error. -/

/-- The `retry-after` header of a 429 response, as seen through
`Number(response.headers.get('retry-after'))`. -/
inductive RetryHeader where
  | absent : RetryHeader
  | numeric (n : Nat) : RetryHeader
  | nonNumeric : RetryHeader
deriving Repr, DecidableEq

/-- `Number(headers.get('retry-after'))` followed by the `Number.isFinite`
test: `absent` gives the finite value `0` (because `Number(null) = 0`),
a numeric header its value, and a non-numeric header `NaN` (not finite). -/
def headerNumber : RetryHeader → Option Nat
  | .absent => some 0
  | .numeric n => some n
  | .nonNumeric => none

/-- The wait (ms) before the retry that follows a 429 on `attempt`
(lines 163-164 of src/clients/pullpush.ts). -/
def waitAfter429 (h : RetryHeader) (retryBackoffMs : Nat) (attempt : Nat) : Nat :=
  match headerNumber h with
  | some n => n * 1000
  | none => retryBackoffMs * (attempt + 1)

/-- The response the endpoint produces for a given attempt number. -/
inductive FetchAttemptResult where
  | rateLimited (h : RetryHeader) : FetchAttemptResult
  | httpError (status : Nat) : FetchAttemptResult
  | success (body : String) : FetchAttemptResult
deriving Repr, DecidableEq

/-- The `for` loop of `fetchLive`, by recursion on the remaining attempt
budget (`remaining = maxRetries - attempt`); returns the outcome and the
list of waits performed, in order. -/
def fetchLiveGo (resp : Nat → FetchAttemptResult)
    (maxRetries retryBackoffMs : Nat) :
    Nat → Nat → Except String String × List Nat
  | _, 0 => (.error "Exceeded retry budget for pullpush API request.", [])
  | attempt, r + 1 =>
    match resp attempt with
    | .rateLimited h =>
        let rest := fetchLiveGo resp maxRetries retryBackoffMs (attempt + 1) r
        (rest.1, waitAfter429 h retryBackoffMs attempt :: rest.2)
    | .httpError status =>
        if attempt < maxRetries - 1 then
          let rest := fetchLiveGo resp maxRetries retryBackoffMs (attempt + 1) r
          (rest.1, retryBackoffMs * (attempt + 1) :: rest.2)
        else
          (.error ("Pullpush API request failed with status " ++ toString status), [])
    | .success body => (.ok body, [])

/-- `fetchLive`: run the loop from attempt 0 with the full budget. -/
def fetchLive (resp : Nat → FetchAttemptResult)
    (maxRetries retryBackoffMs : Nat) : Except String String × List Nat :=
  fetchLiveGo resp maxRetries retryBackoffMs 0 maxRetries

/-! ## CSV output (csvEscape / CsvStreamWriter.writeRow, src/csv/writer.ts)

`csvEscape` quotes a value containing the delimiter, a quote, or a
newline; its sanitization replaces every `\r?\n` match by a single space
and doubles every quote.  `writeRow` joins the escaped column values with
commas and appends one `\n`. -/

/-- `value.replace(/\r?\n/g, ' ')`: each CRLF or lone LF becomes one
space; a CR not followed by LF is left alone. -/
def stripNewlines : List Char → List Char
  | [] => []
  | c :: rest =>
    if c = '\r' ∧ rest.head? = some '\n' then stripNewlines rest
    else if c = '\n' then ' ' :: stripNewlines rest
    else c :: stripNewlines rest

/-- `.replace(/"/g, '""')`. -/
def doubleQuotes : List Char → List Char
  | [] => []
  | c :: rest =>
    if c = '"' then '"' :: '"' :: doubleQuotes rest
    else c :: doubleQuotes rest

/-- `csvEscape` (src/csv/writer.ts lines 65-69): `needsQuotes` is the
`includes` test, the sanitized value replaces newlines and doubles
quotes. -/
def csvEscape (value : String) : String :=
  if value.data.contains ',' || value.data.contains '\n'
      || value.data.contains '"' then
    String.mk ('"' :: doubleQuotes (stripNewlines value.data) ++ ['"'])
  else
    String.mk (doubleQuotes (stripNewlines value.data))

/-- The line `CsvStreamWriter.writeRow` writes for one row's column
values: escaped values joined by commas, plus the trailing newline. -/
def writeRowLine (fields : List String) : String :=
  joinComma (fields.map csvEscape) ++ "\n"

/-- Undo the quote doubling of a quoted CSV field body. -/
def csvUnquoteChars : List Char → List Char
  | [] => []
  | '"' :: '"' :: rest => '"' :: csvUnquoteChars rest
  | c :: rest => c :: csvUnquoteChars rest

/-- A standard CSV parse of one emitted field: a field wrapped in quotes
has the outer quotes stripped and inner doubled quotes collapsed; any
other field is taken literally. -/
def csvParseField (s : String) : String :=
  if 2 ≤ s.data.length ∧ s.data.head? = some '"' ∧ s.data.getLast? = some '"'
  then String.mk (csvUnquoteChars (s.data.drop 1).dropLast)
  else s

/-! ## Time parsing (toUnixSeconds, src/utils/time.ts)

For a string input, `toUnixSeconds` first applies `Number(value)`; when
that is not NaN it returns `Math.floor` of the numeric value, interpreted
directly as epoch seconds, and never consults `Date.parse`.  Only a string
whose `Number` conversion is NaN reaches `Date.parse` (milliseconds,
floored after division by 1000), and if that too is NaN the function
throws.  The two JavaScript built-ins are modelled as oracles: `number s`
is the finite value of `Number(s)` (`none` for NaN; infinities fall
outside the model) and `dateParse s` the integer millisecond timestamp of
`Date.parse(s)` (`none` for NaN).  JavaScript's `Number('')` is `0`, which
the theorem's empty-string conjunct and the witness instantiate. -/

/-- The JavaScript conversions `Number` and `Date.parse` seen by
`toUnixSeconds`. -/
structure JsConv where
  number : String → Option ℚ
  dateParse : String → Option Int

/-- The outcome of `toUnixSeconds`, together with whether `Date.parse` was
attempted. -/
structure ToUnixOutcome where
  result : Except String Int
  usedDateParse : Bool
deriving Repr

/-- `toUnixSeconds` (src/utils/time.ts lines 6-22) on a string input. -/
def toUnixSecondsStr (env : JsConv) (value : String) : ToUnixOutcome :=
  match env.number value with
  | some q => { result := .ok ⌊q⌋, usedDateParse := false }
  | none =>
    match env.dateParse value with
    | some ms =>
        { result := .ok ⌊(ms : ℚ) / 1000⌋, usedDateParse := true }
    | none =>
        { result := .error ("Unable to parse time value: " ++ value)
          usedDateParse := true }

/-- `toUnixSeconds` on a number input: `Math.floor(value)`. -/
def toUnixSecondsNum (value : ℚ) : Int :=
  ⌊value⌋

end ClickupReddit

namespace ClickupReddit

theorem emitIfReady_emitted {α : Type} (res : Nat → α) (st : PipelineState α)
    (h : st.emitted = (List.range st.nextEmitIndex).map res) :
    (emitIfReady res st).emitted
      = (List.range (emitIfReady res st).nextEmitIndex).map res := by
  suffices H : ∀ (n : Nat) (st : PipelineState α), st.pending.length = n →
      st.emitted = (List.range st.nextEmitIndex).map res →
      (emitIfReady res st).emitted
        = (List.range (emitIfReady res st).nextEmitIndex).map res from
    H _ st rfl h
  intro n
  induction n using Nat.strong_induction_on with
  | _ n ih =>
    intro st hn h
    rw [emitIfReady]
    split
    · next hmem =>
      subst hn
      refine ih _ ?_ _ rfl ?_
      · dsimp only
        have h1 := List.length_erase_of_mem hmem
        have h2 : 0 < st.pending.length := List.length_pos_of_mem hmem
        omega
      · simp only [h, List.range_succ, List.map_append, List.map_cons, List.map_nil]
    · exact h

theorem emitIfReady_not_mem {α : Type} (res : Nat → α) (st : PipelineState α) :
    (emitIfReady res st).nextEmitIndex ∉ (emitIfReady res st).pending := by
  suffices H : ∀ (n : Nat) (st : PipelineState α), st.pending.length = n →
      (emitIfReady res st).nextEmitIndex ∉ (emitIfReady res st).pending from
    H _ st rfl
  intro n
  induction n using Nat.strong_induction_on with
  | _ n ih =>
    intro st hn
    rw [emitIfReady]
    split
    · next hmem =>
      subst hn
      refine ih _ ?_ _ rfl
      dsimp only
      have h1 := List.length_erase_of_mem hmem
      have h2 : 0 < st.pending.length := List.length_pos_of_mem hmem
      omega
    · next hmem => exact hmem

theorem emitIfReady_nodup {α : Type} (res : Nat → α) (st : PipelineState α)
    (h : st.pending.Nodup) : (emitIfReady res st).pending.Nodup := by
  suffices H : ∀ (n : Nat) (st : PipelineState α), st.pending.length = n →
      st.pending.Nodup → (emitIfReady res st).pending.Nodup from
    H _ st rfl h
  intro n
  induction n using Nat.strong_induction_on with
  | _ n ih =>
    intro st hn h
    rw [emitIfReady]
    split
    · next hmem =>
      subst hn
      refine ih _ ?_ _ rfl (h.erase _)
      dsimp only
      have h1 := List.length_erase_of_mem hmem
      have h2 : 0 < st.pending.length := List.length_pos_of_mem hmem
      omega
    · exact h

theorem emitIfReady_union {α : Type} (res : Nat → α) (st : PipelineState α)
    (h : st.pending.Nodup) :
    (emitIfReady res st).pending.toFinset
        ∪ Finset.range (emitIfReady res st).nextEmitIndex
      = st.pending.toFinset ∪ Finset.range st.nextEmitIndex := by
  suffices H : ∀ (n : Nat) (st : PipelineState α), st.pending.length = n →
      st.pending.Nodup →
      (emitIfReady res st).pending.toFinset
          ∪ Finset.range (emitIfReady res st).nextEmitIndex
        = st.pending.toFinset ∪ Finset.range st.nextEmitIndex from
    H _ st rfl h
  intro n
  induction n using Nat.strong_induction_on with
  | _ n ih =>
    intro st hn h
    rw [emitIfReady]
    split
    · next hmem =>
      subst hn
      have hrec := ih (st.pending.erase st.nextEmitIndex).length (by
        have h1 := List.length_erase_of_mem hmem
        have h2 : 0 < st.pending.length := List.length_pos_of_mem hmem
        omega)
        { pending := st.pending.erase st.nextEmitIndex
          nextEmitIndex := st.nextEmitIndex + 1
          emitted := st.emitted ++ [res st.nextEmitIndex] } rfl (h.erase _)
      rw [hrec]
      ext x
      simp only [Finset.mem_union, List.mem_toFinset, Finset.mem_range,
        h.mem_erase_iff]
      constructor
      · rintro (⟨hne, hx⟩ | hx)
        · exact Or.inl hx
        · rcases Nat.lt_or_ge x st.nextEmitIndex with hlt | hge
          · exact Or.inr hlt
          · have : x = st.nextEmitIndex := by omega
            subst this
            exact Or.inl hmem
      · rintro (hx | hx)
        · by_cases hxe : x = st.nextEmitIndex
          · exact Or.inr (by omega)
          · exact Or.inl ⟨hxe, hx⟩
        · exact Or.inr (by omega)
    · rfl

theorem emitIfReady_lower {α : Type} (res : Nat → α) (st : PipelineState α)
    (h : st.pending.Nodup) (hlow : ∀ x ∈ st.pending, st.nextEmitIndex ≤ x) :
    ∀ x ∈ (emitIfReady res st).pending, (emitIfReady res st).nextEmitIndex ≤ x := by
  suffices H : ∀ (n : Nat) (st : PipelineState α), st.pending.length = n →
      st.pending.Nodup → (∀ x ∈ st.pending, st.nextEmitIndex ≤ x) →
      ∀ x ∈ (emitIfReady res st).pending, (emitIfReady res st).nextEmitIndex ≤ x from
    H _ st rfl h hlow
  intro n
  induction n using Nat.strong_induction_on with
  | _ n ih =>
    intro st hn h hlow
    rw [emitIfReady]
    split
    · next hmem =>
      subst hn
      refine ih _ ?_ _ rfl (h.erase _) ?_
      · dsimp only
        have h1 := List.length_erase_of_mem hmem
        have h2 : 0 < st.pending.length := List.length_pos_of_mem hmem
        omega
      · intro x hx
        rw [h.mem_erase_iff] at hx
        have := hlow x hx.2
        dsimp only
        omega
    · exact hlow

/-- Invariant of the pipeline fold: the emitted list is exactly the results
of indices `0, ..., nextEmitIndex - 1` in order, the next expected index is
not pending, pending indices are distinct, all at least `nextEmitIndex`, and
together with the already-emitted indices they are exactly the completed
ones. -/
theorem runPipeline_inv {α : Type} (res : Nat → α) (order : List Nat)
    (horder : order.Nodup) :
    (runPipeline res order).emitted
        = (List.range (runPipeline res order).nextEmitIndex).map res
    ∧ (runPipeline res order).nextEmitIndex ∉ (runPipeline res order).pending
    ∧ (runPipeline res order).pending.Nodup
    ∧ (∀ x ∈ (runPipeline res order).pending,
        (runPipeline res order).nextEmitIndex ≤ x)
    ∧ (runPipeline res order).pending.toFinset
        ∪ Finset.range (runPipeline res order).nextEmitIndex = order.toFinset := by
  induction order using List.reverseRecOn with
  | nil =>
    refine ⟨rfl, by simp [runPipeline], by simp [runPipeline], by simp [runPipeline], ?_⟩
    simp [runPipeline]
  | append_singleton o i ih =>
    have ho : o.Nodup := horder.sublist (by simp)
    have hio : i ∉ o := by
      intro hmem
      rw [List.nodup_append] at horder
      exact horder.2.2 hmem (List.mem_singleton_self i)
    have hrun : runPipeline res (o ++ [i]) = completeTask res (runPipeline res o) i := by
      simp [runPipeline, List.foldl_append]
    obtain ⟨hemit, hnm, hnd, hlow, huni⟩ := ih ho
    set st := runPipeline res o with hst
    -- the newly completed index has not been emitted yet
    have hfresh : st.nextEmitIndex ≤ i ∨ i ∈ st.pending := by
      by_cases hp : i ∈ st.pending
      · exact Or.inr hp
      · left
        by_contra hlt
        have hx : i ∈ st.pending.toFinset ∪ Finset.range st.nextEmitIndex := by
          simp only [Finset.mem_union, Finset.mem_range]
          omega
        rw [huni] at hx
        exact hio (List.mem_toFinset.mp hx)
    have hip : i ∉ st.pending := by
      intro hp
      have hx : i ∈ st.pending.toFinset ∪ Finset.range st.nextEmitIndex :=
        Finset.mem_union_left _ (List.mem_toFinset.mpr hp)
      rw [huni] at hx
      exact hio (List.mem_toFinset.mp hx)
    have hile : st.nextEmitIndex ≤ i := by
      rcases hfresh with hf | hf
      · exact hf
      · exact absurd hf hip
    have hnd' : (i :: st.pending).Nodup := List.nodup_cons.mpr ⟨hip, hnd⟩
    have hlow' : ∀ x ∈ i :: st.pending, st.nextEmitIndex ≤ x := by
      intro x hx
      rcases List.mem_cons.mp hx with hx | hx
      · omega
      · exact hlow x hx
    rw [hrun]
    unfold completeTask
    refine ⟨emitIfReady_emitted res _ hemit, emitIfReady_not_mem res _,
      emitIfReady_nodup res _ hnd', emitIfReady_lower res _ hnd' hlow', ?_⟩
    rw [emitIfReady_union res _ hnd']
    have hins : (i :: st.pending).toFinset = insert i st.pending.toFinset := by
      simp
    rw [hins, Finset.insert_union, huni]
    ext x
    simp only [Finset.mem_insert, List.mem_toFinset, List.mem_append,
      List.mem_singleton]
    tauto

/-- **C1.** For every number `n` of ordered inputs and every completion
order of the concurrent enrichment calls (any permutation of the indices
`0, ..., n-1`, which covers every interleaving the concurrency limiter can
produce), the pipeline of `CommentAnalyzer.analyze` emits (streams to
`onClassification` and appends to the collected list) exactly the
classification of each input exactly once, in exactly input order
`0, 1, ..., n-1`; moreover after any prefix of completions the emitted
sequence is exactly the classifications of `0, ..., nextEmitIndex - 1`, so
an item is emitted only after every item with a smaller index. -/
theorem C1_analyze_ordered_emission {α : Type} (res : Nat → α) (n : Nat)
    (order : List Nat) (h : order.Perm (List.range n)) :
    (runPipeline res order).emitted = (List.range n).map res
    ∧ (runPipeline res order).pending = []
    ∧ (runPipeline res order).nextEmitIndex = n
    ∧ ∀ (k : Nat), (runPipeline res (List.take k order)).emitted
        = (List.range ((runPipeline res (List.take k order)).nextEmitIndex)).map
            res := by
  have hnd : order.Nodup := h.nodup_iff.mpr (List.nodup_range n)
  obtain ⟨hemit, hnm, hpnd, hlow, huni⟩ := runPipeline_inv res order hnd
  have hfin : order.toFinset = Finset.range n := by
    rw [List.toFinset_eq_of_perm _ _ h]
    ext x
    simp
  rw [hfin] at huni
  have hle : (runPipeline res order).nextEmitIndex ≤ n := by
    have hsub : Finset.range (runPipeline res order).nextEmitIndex
        ⊆ Finset.range n := by
      rw [← huni]
      exact Finset.subset_union_right
    exact Finset.range_subset.mp hsub
  have hnext : (runPipeline res order).nextEmitIndex = n := by
    by_contra hne
    have hlt : (runPipeline res order).nextEmitIndex < n := by omega
    have hx : (runPipeline res order).nextEmitIndex
        ∈ (runPipeline res order).pending.toFinset
          ∪ Finset.range (runPipeline res order).nextEmitIndex := by
      rw [huni]
      exact Finset.mem_range.mpr hlt
    rcases Finset.mem_union.mp hx with hx | hx
    · exact hnm (List.mem_toFinset.mp hx)
    · exact absurd (Finset.mem_range.mp hx) (by omega)
  have hpe : (runPipeline res order).pending = [] := by
    rw [List.eq_nil_iff_forall_not_mem]
    intro x hx
    have hxu : x ∈ (runPipeline res order).pending.toFinset
        ∪ Finset.range (runPipeline res order).nextEmitIndex :=
      Finset.mem_union_left _ (List.mem_toFinset.mpr hx)
    rw [huni] at hxu
    have hxn : x < n := Finset.mem_range.mp hxu
    have := hlow x hx
    omega
  refine ⟨by rw [hemit, hnext], hpe, hnext, ?_⟩
  intro k
  have hndk : (List.take k order).Nodup := hnd.sublist (List.take_sublist k order)
  exact (runPipeline_inv res (List.take k order) hndk).1

theorem C1_analyze_ordered_emission_witness :
    ([2, 0, 1] : List Nat).Perm (List.range 3)
    ∧ ((runPipeline (fun i => 100 + i) [2, 0, 1]).emitted
          = (List.range 3).map (fun i => 100 + i)
        ∧ (runPipeline (fun i => 100 + i) [2, 0, 1]).pending = []
        ∧ (runPipeline (fun i => 100 + i) [2, 0, 1]).nextEmitIndex = 3
        ∧ ∀ (k : Nat),
            (runPipeline (fun i => 100 + i) (List.take k [2, 0, 1])).emitted
              = (List.range ((runPipeline (fun i => 100 + i)
                  (List.take k [2, 0, 1])).nextEmitIndex)).map (fun i => 100 + i)) :=
  ⟨by decide, C1_analyze_ordered_emission (fun i => 100 + i) 3 [2, 0, 1] (by decide)⟩

theorem fetchRangeIters_le (page : Int → List RedditComment) (endE : Int)
    (cursor : Int) : fetchRangeIters page endE cursor ≤ (endE - cursor).toNat := by
  suffices H : ∀ (fuel : Nat) (cursor : Int), (endE - cursor).toNat = fuel →
      fetchRangeIters page endE cursor ≤ (endE - cursor).toNat from H _ cursor rfl
  intro fuel
  induction fuel using Nat.strong_induction_on with
  | _ fuel ih =>
    intro cursor hfuel
    rw [fetchRangeIters]
    split
    · next hlt =>
      split
      · omega
      · next hne =>
        have hgt : cursor < nextCursor cursor (lastCreated (page cursor) cursor) := by
          simp only [nextCursor, MIN_CURSOR_INCREMENT]
          split <;> omega
        have hrec := ih (endE - nextCursor cursor (lastCreated (page cursor) cursor)).toNat
          (by omega) _ rfl
        omega
    · omega

/-- **C2.** The cursor update of `fetchRange` equals
`max(createdAt of the page's last item, cursor + 1)`, is strictly greater
than the current cursor (in particular on a plateau where the whole page
shares `createdAt = cursor`, the next cursor is `cursor + 1`), the
pagination loop over `[startE, endE)` runs at most `endE - startE`
iterations, and a nonempty page indeed makes the loop recurse at exactly
that max-advanced cursor. -/
theorem C2_fetchRange_cursor_progress :
    (∀ (cursor lastTs : Int), nextCursor cursor lastTs = max lastTs (cursor + 1))
    ∧ (∀ (cursor lastTs : Int), cursor < nextCursor cursor lastTs)
    ∧ (∀ (cursor : Int), nextCursor cursor cursor = cursor + 1)
    ∧ (∀ (page : Int → List RedditComment) (startE endE : Int),
        fetchRangeIters page endE startE ≤ (endE - startE).toNat)
    ∧ (∀ (page : Int → List RedditComment) (endE cursor : Int),
        cursor < endE → page cursor ≠ [] →
        fetchRangeGo page endE cursor
          = page cursor
            ++ fetchRangeGo page endE
                (max (lastCreated (page cursor) cursor) (cursor + 1))) := by
  have hmax : ∀ (cursor lastTs : Int),
      nextCursor cursor lastTs = max lastTs (cursor + 1) := by
    intro cursor lastTs
    simp only [nextCursor, MIN_CURSOR_INCREMENT]
    split <;> omega
  refine ⟨hmax, ?_, ?_, ?_, ?_⟩
  · intro cursor lastTs
    rw [hmax]
    omega
  · intro cursor
    rw [hmax]
    omega
  · intro page startE endE
    exact fetchRangeIters_le page endE startE
  · intro page endE cursor hlt hne
    rw [← hmax]
    rw [fetchRangeGo]
    rw [if_pos hlt, if_neg hne]

theorem C2_fetchRange_cursor_progress_witness :
    (3 : Int) < 10
    ∧ (fun _ : Int => [RedditComment.mk "a" "b" 5 "p" "s"]) 3 ≠ []
    ∧ fetchRangeGo (fun _ => [RedditComment.mk "a" "b" 5 "p" "s"]) 10 3
        = (fun _ : Int => [RedditComment.mk "a" "b" 5 "p" "s"]) 3
          ++ fetchRangeGo (fun _ => [RedditComment.mk "a" "b" 5 "p" "s"]) 10
              (max (lastCreated ((fun _ : Int =>
                [RedditComment.mk "a" "b" 5 "p" "s"]) 3) 3) (3 + 1)) :=
  ⟨by omega, by simp,
    C2_fetchRange_cursor_progress.2.2.2.2
      (fun _ => [RedditComment.mk "a" "b" 5 "p" "s"]) 10 3 (by omega) (by simp)⟩

theorem keyLE_trans : ∀ (a b c : String × String),
    keyLE a b → keyLE b c → keyLE a c := by
  intro a b c hab hbc
  simp only [keyLE, decide_eq_true_eq] at *
  exact le_trans hab hbc

theorem keyLE_total : ∀ (a b : String × String), keyLE a b || keyLE b a := by
  intro a b
  simp only [keyLE]
  rcases le_total a.1 b.1 with h | h <;> simp [h]

/-- Two lists of serialized object entries that are permutations of each
other with pairwise-distinct keys sort identically: the sorted order is
canonical. -/
theorem mergeSort_keyLE_eq_of_perm (l1 l2 : List (String × String))
    (hperm : l1.Perm l2) (hnd : (l1.map Prod.fst).Nodup) :
    l1.mergeSort keyLE = l2.mergeSort keyLE := by
  have hp : (l1.mergeSort keyLE).Perm (l2.mergeSort keyLE) :=
    (l1.mergeSort_perm keyLE).trans (hperm.trans (l2.mergeSort_perm keyLE).symm)
  have hsorted : ∀ (l : List (String × String)), (l.map Prod.fst).Nodup →
      (l.mergeSort keyLE).Pairwise (fun p q => p.1 < q.1) := by
    intro l hl
    have hle : (l.mergeSort keyLE).Pairwise (fun p q => p.1 ≤ q.1) := by
      have := @List.sorted_mergeSort _ keyLE keyLE_trans keyLE_total l
      exact this.imp (fun h => by simpa [keyLE] using h)
    have hne : (l.mergeSort keyLE).Pairwise (fun p q => p.1 ≠ q.1) := by
      have hmnd : ((l.mergeSort keyLE).map Prod.fst).Nodup := by
        have : ((l.mergeSort keyLE).map Prod.fst).Perm (l.map Prod.fst) :=
          (l.mergeSort_perm keyLE).map Prod.fst
        exact (this.nodup_iff).mpr hl
      exact (List.pairwise_map.mp hmnd)
    exact (hle.and hne).imp (fun h => lt_of_le_of_ne h.1 h.2)
  have hnd2 : (l2.map Prod.fst).Nodup := by
    have : (l1.map Prod.fst).Perm (l2.map Prod.fst) := hperm.map Prod.fst
    exact (this.nodup_iff).mp hnd
  haveI : IsAntisymm (String × String) (fun p q => p.1 < q.1) :=
    ⟨fun a b h1 h2 => ((lt_asymm h1) h2).elim⟩
  exact List.eq_of_perm_of_sorted hp (hsorted l1 hnd) (hsorted l2 hnd2)

theorem canonPairs_eq_map (kvs : List (String × JValue)) :
    canonPairs kvs = kvs.map (fun kv => (kv.1, canonicalize kv.2)) := by
  induction kvs with
  | nil => rfl
  | cons kv rest ih => rw [canonPairs]; rw [ih]; rfl

/-- **C4.** `checksumFrom` is deterministic, and on objects it is
independent of key insertion order: permuting the entries of an object
(with the distinct keys JavaScript objects guarantee) leaves the digest
unchanged, as the concrete pair `{a:1,b:2}` / `{b:2,a:1}` and a nested
reordering illustrate; arrays preserve element order, so swapping two
distinct array elements changes the digest. -/
theorem C4_checksum_key_order_independent :
    (∀ v : JValue, checksumFrom v = checksumFrom v)
    ∧ (∀ (fields fields' : List (String × JValue)),
        fields.Perm fields' → (fields.map Prod.fst).Nodup →
        checksumFrom (.obj fields) = checksumFrom (.obj fields'))
    ∧ checksumFrom (.obj [("a", .num 1), ("b", .num 2)])
        = checksumFrom (.obj [("b", .num 2), ("a", .num 1)])
    ∧ checksumFrom (.obj [("a", .num 1),
          ("c", .obj [("x", .num 1), ("y", .num 2)])])
        = checksumFrom (.obj [("c", .obj [("y", .num 2), ("x", .num 1)]),
          ("a", .num 1)])
    ∧ checksumFrom (.arr [.num 1, .num 2]) ≠ checksumFrom (.arr [.num 2, .num 1]) := by
  have hobj : ∀ (fields fields' : List (String × JValue)),
      fields.Perm fields' → (fields.map Prod.fst).Nodup →
      checksumFrom (.obj fields) = checksumFrom (.obj fields') := by
    intro fields fields' hperm hnd
    have hpairs : (canonPairs fields).Perm (canonPairs fields') := by
      rw [canonPairs_eq_map, canonPairs_eq_map]
      exact hperm.map _
    have hndp : ((canonPairs fields).map Prod.fst).Nodup := by
      rw [canonPairs_eq_map, List.map_map]
      exact hnd
    have hsorteq := mergeSort_keyLE_eq_of_perm _ _ hpairs hndp
    simp only [checksumFrom, canonicalize, hsorteq]
  refine ⟨fun v => rfl, hobj, ?_, ?_, ?_⟩
  · exact hobj _ _ (List.Perm.swap _ _ _) (by decide)
  · refine hobj _ _ (List.Perm.swap _ _ _) (by decide) |>.trans ?_
    have hinner : checksumFrom (.obj [("x", .num 1), ("y", .num 2)])
        = checksumFrom (.obj [("y", .num 2), ("x", .num 1)]) :=
      hobj _ _ (List.Perm.swap _ _ _) (by decide)
    simp only [checksumFrom, canonicalize, canonPairs] at hinner ⊢
    rw [hinner]
  · decide

/-- **C5.** `getOrCompute` invokes the compute function exactly once across
a miss followed by a hit: the first call (payload not yet cached) computes
and performs exactly one cache write; a second call whose payload hashes
identically (in particular a structurally identical payload, by C4)
computes nothing, writes nothing, and returns the stored result; a payload
with a different checksum (any field changed, collisions aside) computes
again. -/
theorem C5_getOrCompute_compute_once (cache : List (String × JValue))
    (p p' q : JValue) (compute compute' computeQ : JValue)
    (hmiss : cache.lookup (checksumFrom p) = none)
    (hsame : checksumFrom p' = checksumFrom p)
    (hdiff : checksumFrom q ≠ checksumFrom p)
    (hqmiss : cache.lookup (checksumFrom q) = none) :
    (getOrCompute cache p compute).computeCalls = 1
    ∧ (getOrCompute cache p compute).cacheWrites = 1
    ∧ (getOrCompute cache p compute).result = compute
    ∧ (getOrCompute (getOrCompute cache p compute).cacheAfter p'
        compute').computeCalls = 0
    ∧ (getOrCompute (getOrCompute cache p compute).cacheAfter p'
        compute').cacheWrites = 0
    ∧ (getOrCompute (getOrCompute cache p compute).cacheAfter p'
        compute').result = compute
    ∧ (getOrCompute (getOrCompute cache p compute).cacheAfter q
        computeQ).computeCalls = 1 := by
  have h1 : getOrCompute cache p compute
      = { result := compute
          cacheAfter := (checksumFrom p, compute) :: cache
          computeCalls := 1
          cacheWrites := 1 } := by
    simp [getOrCompute, hmiss]
  have h2 : ((checksumFrom p, compute) :: cache).lookup (checksumFrom p')
      = some compute := by
    simp [List.lookup, hsame]
  have h3 : ((checksumFrom p, compute) :: cache).lookup (checksumFrom q)
      = none := by
    have hbeq : (checksumFrom q == checksumFrom p) = false := by
      simpa using hdiff
    simp [List.lookup, hbeq, hqmiss]
  rw [h1]
  refine ⟨rfl, rfl, rfl, ?_, ?_, ?_, ?_⟩ <;>
    simp [getOrCompute, h2, h3]

theorem C5_getOrCompute_compute_once_witness :
    ([] : List (String × JValue)).lookup (checksumFrom (.str "payload-a")) = none
    ∧ checksumFrom (.str "payload-a") = checksumFrom (.str "payload-a")
    ∧ checksumFrom (.str "payload-b") ≠ checksumFrom (.str "payload-a")
    ∧ ([] : List (String × JValue)).lookup (checksumFrom (.str "payload-b")) = none
    ∧ ((getOrCompute [] (.str "payload-a") (.str "r1")).computeCalls = 1
      ∧ (getOrCompute [] (.str "payload-a") (.str "r1")).cacheWrites = 1
      ∧ (getOrCompute [] (.str "payload-a") (.str "r1")).result = .str "r1"
      ∧ (getOrCompute (getOrCompute [] (.str "payload-a") (.str "r1")).cacheAfter
          (.str "payload-a") (.str "r2")).computeCalls = 0
      ∧ (getOrCompute (getOrCompute [] (.str "payload-a") (.str "r1")).cacheAfter
          (.str "payload-a") (.str "r2")).cacheWrites = 0
      ∧ (getOrCompute (getOrCompute [] (.str "payload-a") (.str "r1")).cacheAfter
          (.str "payload-a") (.str "r2")).result = .str "r1"
      ∧ (getOrCompute (getOrCompute [] (.str "payload-a") (.str "r1")).cacheAfter
          (.str "payload-b") (.str "r3")).computeCalls = 1) :=
  ⟨rfl, rfl, by decide, rfl,
    C5_getOrCompute_compute_once [] (.str "payload-a") (.str "payload-a")
      (.str "payload-b") (.str "r1") (.str "r2") (.str "r3") rfl rfl (by decide) rfl⟩

/-- **C6.** If the enrichment of any single input fails — in particular
when the inference service returns no parsed payload, so `classifyComment`
throws — the whole `analyze` run rejects with that error: no
classification list is produced and no partial-success mode continues past
the failure. -/
theorem C6_enrichment_failure_aborts {α : Type} (res : Nat → α)
    (parsedResp : Nat → Option ClassificationPayload) (order : List Nat)
    (j : Nat) (hj : j ∈ order) (hfail : parsedResp j = none) :
    analyzeResult res (fun i => classifyCommentErr (parsedResp i)) order
      = Except.error
          "OpenAI response did not include parsed classification output." := by
  have key : ∀ (o : List Nat) (st : PipelineState α),
      (∃ k, k ∈ o ∧ parsedResp k = none) →
      o.foldlM (taskStep res (fun i => classifyCommentErr (parsedResp i))) st
        = Except.error
            "OpenAI response did not include parsed classification output." := by
    intro o
    induction o with
    | nil =>
      rintro st ⟨k, hk, _⟩
      exact absurd hk (List.not_mem_nil k)
    | cons a rest ih =>
      rintro st ⟨k, hk, hkn⟩
      rw [List.foldlM_cons]
      cases hpa : parsedResp a with
      | none =>
        have hta : taskStep res (fun i => classifyCommentErr (parsedResp i)) st a
            = Except.error
                "OpenAI response did not include parsed classification output." := by
          simp [taskStep, classifyCommentErr, hpa]
        rw [hta]
        rfl
      | some pl =>
        have hta : taskStep res (fun i => classifyCommentErr (parsedResp i)) st a
            = Except.ok (completeTask res st a) := by
          simp [taskStep, classifyCommentErr, hpa]
        rw [hta]
        have hkrest : k ∈ rest := by
          rcases List.mem_cons.mp hk with rfl | hk'
          · rw [hpa] at hkn
            exact absurd hkn (by simp)
          · exact hk'
        exact ih (completeTask res st a) ⟨k, hkrest, hkn⟩
  unfold analyzeResult analyzeTasksRun
  rw [key order _ ⟨j, hj, hfail⟩]
  rfl

theorem C6_enrichment_failure_aborts_witness :
    (1 : Nat) ∈ [0, 1, 2]
    ∧ (fun i : Nat => if i = 1 then (none : Option ClassificationPayload)
        else some (ClassificationPayload.mk "cat" "pos" "sum" "high" "high")) 1 = none
    ∧ analyzeResult (fun i => i)
        (fun i => classifyCommentErr
          ((fun i : Nat => if i = 1 then (none : Option ClassificationPayload)
            else some (ClassificationPayload.mk "cat" "pos" "sum" "high" "high")) i))
        [0, 1, 2]
      = Except.error
          "OpenAI response did not include parsed classification output." :=
  ⟨by decide, rfl,
    C6_enrichment_failure_aborts (fun i => i)
      (fun i : Nat => if i = 1 then (none : Option ClassificationPayload)
        else some (ClassificationPayload.mk "cat" "pos" "sum" "high" "high"))
      [0, 1, 2] 1 (by decide) rfl⟩

/-- **C7 counterexample.** The claim says that with no server-supplied
retry-after delay the wait is `retryBackoffMs * (attempt + 1)`; but when
the header is absent, `Number(null) = 0` is finite, so the code waits 0 ms:
a run whose first attempt gets a 429 with no retry-after header waits
`[0]`, not `[5000 * (0 + 1)]`. -/
theorem C7_fetchLive_backoff_counterexample :
    waitAfter429 .absent 5000 0 = 0
    ∧ 0 ≠ 5000 * (0 + 1)
    ∧ (fetchLive (fun a => if a = 0 then .rateLimited .absent
        else .success "ok") 5 5000).2 = [0]
    ∧ (fetchLive (fun a => if a = 0 then .rateLimited .absent
        else .success "ok") 5 5000).1 = .ok "ok"
    ∧ [0] ≠ [5000 * (0 + 1)] := by
  refine ⟨rfl, by omega, ?_, ?_, by simp⟩ <;> rfl

/-- **C7 (amended).** On HTTP 429 `fetchLive` waits the server-supplied
retry-after value converted to milliseconds whenever
`Number(headers.get('retry-after'))` is finite — which includes 0 ms for an
absent header, since `Number(null) = 0` — and `retryBackoffMs * (attempt+1)`
only when the header is present but non-numeric; then it retries.  Given
`maxRetries ≥ 3`, a request that is rate-limited on attempts 1 and 2 and
succeeds on attempt 3 returns the successful page's body without raising,
and a run whose whole budget is rate-limited raises the fatal budget
error. -/
theorem C7_fetchLive_retry_behavior :
    (∀ (b attempt : Nat), waitAfter429 .absent b attempt = 0 * 1000)
    ∧ (∀ (n b attempt : Nat), waitAfter429 (.numeric n) b attempt = n * 1000)
    ∧ (∀ (b attempt : Nat), waitAfter429 .nonNumeric b attempt = b * (attempt + 1))
    ∧ (∀ (resp : Nat → FetchAttemptResult) (maxRetries b : Nat) (body : String)
        (h1 h2 : RetryHeader), 3 ≤ maxRetries →
        resp 0 = .rateLimited h1 → resp 1 = .rateLimited h2 →
        resp 2 = .success body →
        (fetchLive resp maxRetries b).1 = .ok body)
    ∧ (∀ (resp : Nat → FetchAttemptResult) (maxRetries b : Nat),
        (∀ a, a < maxRetries → ∃ h, resp a = .rateLimited h) →
        (fetchLive resp maxRetries b).1
          = .error "Exceeded retry budget for pullpush API request.") := by
  refine ⟨fun b attempt => rfl, fun n b attempt => rfl, fun b attempt => rfl, ?_, ?_⟩
  · intro resp maxRetries b body h1 h2 hge hr0 hr1 hr2
    obtain ⟨r, hr⟩ : ∃ r, maxRetries = r + 3 := ⟨maxRetries - 3, by omega⟩
    subst hr
    show (fetchLiveGo resp (r + 3) b 0 (r + 3)).1 = .ok body
    rw [fetchLiveGo, hr0]
    rw [fetchLiveGo, hr1]
    rw [fetchLiveGo, hr2]
  · intro resp maxRetries b hall
    have key : ∀ (remaining attempt : Nat), attempt + remaining ≤ maxRetries →
        (fetchLiveGo resp maxRetries b attempt remaining).1
          = .error "Exceeded retry budget for pullpush API request." := by
      intro remaining
      induction remaining with
      | zero => intro attempt _; rfl
      | succ r ih =>
        intro attempt hle
        obtain ⟨h, hh⟩ := hall attempt (by omega)
        rw [fetchLiveGo, hh]
        exact ih (attempt + 1) (by omega)
    exact key maxRetries 0 (by omega)

theorem C7_fetchLive_retry_behavior_witness :
    (3 : Nat) ≤ 5
    ∧ (fun a : Nat => if a < 2 then FetchAttemptResult.rateLimited .absent
        else .success "page3") 0 = .rateLimited .absent
    ∧ (fun a : Nat => if a < 2 then FetchAttemptResult.rateLimited .absent
        else .success "page3") 1 = .rateLimited .absent
    ∧ (fun a : Nat => if a < 2 then FetchAttemptResult.rateLimited .absent
        else .success "page3") 2 = .success "page3"
    ∧ (fetchLive (fun a : Nat => if a < 2 then FetchAttemptResult.rateLimited .absent
        else .success "page3") 5 1000).1 = .ok "page3" :=
  ⟨by omega, rfl, rfl, rfl,
    C7_fetchLive_retry_behavior.2.2.2.1
      (fun a : Nat => if a < 2 then FetchAttemptResult.rateLimited .absent
        else .success "page3") 5 1000 "page3" .absent .absent
      (by omega) rfl rfl rfl⟩

theorem stringMk_data (s : String) : String.mk s.data = s := by
  cases s
  rfl

theorem stringData_append (s t : String) : (s ++ t).data = s.data ++ t.data := by
  cases s
  cases t
  rfl

theorem memOfHeadEq {α : Type} {l : List α} {a : α} (h : l.head? = some a) :
    a ∈ l := by
  cases l with
  | nil => cases h
  | cons b t =>
    simp only [List.head?] at h
    cases h
    exact List.mem_cons_self a t

theorem stripNewlines_no_newline (l : List Char) : '\n' ∉ stripNewlines l := by
  induction l with
  | nil => simp [stripNewlines]
  | cons c rest ih =>
    rw [stripNewlines]
    by_cases h1 : c = '\r' ∧ rest.head? = some '\n'
    · rw [if_pos h1]
      exact ih
    · rw [if_neg h1]
      by_cases h2 : c = '\n'
      · rw [if_pos h2]
        intro hmem
        rcases List.mem_cons.mp hmem with h | h
        · exact absurd h (by decide)
        · exact ih h
      · rw [if_neg h2]
        intro hmem
        rcases List.mem_cons.mp hmem with h | h
        · exact h2 h.symm
        · exact ih h

theorem stripNewlines_eq_self (l : List Char) (h : '\n' ∉ l) :
    stripNewlines l = l := by
  induction l with
  | nil => rfl
  | cons c rest ih =>
    have hc : c ≠ '\n' := fun hh => h (by simp [hh])
    have hr : '\n' ∉ rest := fun hh => h (List.mem_cons_of_mem c hh)
    rw [stripNewlines]
    rw [if_neg (fun hh : c = '\r' ∧ rest.head? = some '\n' =>
      hr (memOfHeadEq hh.2))]
    rw [if_neg hc, ih hr]

theorem doubleQuotes_no_newline (l : List Char) (h : '\n' ∉ l) :
    '\n' ∉ doubleQuotes l := by
  induction l with
  | nil => simp [doubleQuotes]
  | cons c rest ih =>
    have hc : c ≠ '\n' := fun hh => h (by simp [hh])
    have hr : '\n' ∉ rest := fun hh => h (List.mem_cons_of_mem c hh)
    rw [doubleQuotes]
    split
    · intro hmem
      rcases List.mem_cons.mp hmem with hh | hh
      · exact absurd hh (by decide)
      · rcases List.mem_cons.mp hh with hh2 | hh2
        · exact absurd hh2 (by decide)
        · exact ih hr hh2
    · intro hmem
      rcases List.mem_cons.mp hmem with hh | hh
      · exact hc hh.symm
      · exact ih hr hh

theorem doubleQuotes_eq_self (l : List Char) (h : '"' ∉ l) :
    doubleQuotes l = l := by
  induction l with
  | nil => rfl
  | cons c rest ih =>
    have hc : c ≠ '"' := fun hh => h (by simp [hh])
    have hr : '"' ∉ rest := fun hh => h (List.mem_cons_of_mem c hh)
    rw [doubleQuotes, if_neg hc, ih hr]

theorem csvUnquote_doubleQuotes (l : List Char) :
    csvUnquoteChars (doubleQuotes l) = l := by
  induction l with
  | nil => rfl
  | cons c rest ih =>
    rw [doubleQuotes]
    by_cases hc : c = '"'
    · rw [if_pos hc]
      subst hc
      have hstep : csvUnquoteChars ('"' :: '"' :: doubleQuotes rest)
          = '"' :: csvUnquoteChars (doubleQuotes rest) := by
        simp [csvUnquoteChars]
      rw [hstep, ih]
    · rw [if_neg hc]
      rw [csvUnquoteChars.eq_def]
      split
      · next heq => cases heq
      · next heq =>
        injection heq with h1 h2
        exact absurd h1 hc
      · next heq =>
        injection heq with h1 h2
        rw [← h1, ← h2, ih]

theorem csvEscape_no_newline (v : String) : '\n' ∉ (csvEscape v).data := by
  have hsan : '\n' ∉ doubleQuotes (stripNewlines v.data) :=
    doubleQuotes_no_newline _ (stripNewlines_no_newline v.data)
  rw [csvEscape]
  split
  · intro hmem
    rcases List.mem_cons.mp hmem with hh | hh
    · exact absurd hh (by decide)
    · rcases List.mem_append.mp hh with hh2 | hh2
      · exact hsan hh2
      · rcases List.mem_singleton.mp hh2 with hh3
        exact absurd hh3 (by decide)
  · exact hsan

theorem joinComma_no_newline (l : List String)
    (h : ∀ s ∈ l, '\n' ∉ s.data) : '\n' ∉ (joinComma l).data := by
  induction l with
  | nil => simp [joinComma]
  | cons s rest ih =>
    cases rest with
    | nil => exact h s (by simp)
    | cons t rest2 =>
      have hjc : joinComma (s :: t :: rest2) = s ++ "," ++ joinComma (t :: rest2) := by
        rw [joinComma]
        simp
      rw [hjc, stringData_append, stringData_append]
      intro hmem
      rcases List.mem_append.mp hmem with hh | hh
      · rcases List.mem_append.mp hh with hh2 | hh2
        · exact h s (by simp) hh2
        · exact absurd hh2 (by decide)
      · exact ih (fun u hu => h u (List.mem_cons_of_mem s hu)) hh

/-- **C9 counterexample.** The claim says a standard CSV parse of the
emitted field preserves newline content; but the sanitizer replaces
`\r?\n` with a space, so the field emitted for `"a\nb"` is `"a b"`
(quoted) and parses back to `"a b"`, not `"a\nb"`. -/
theorem C9_csv_newline_roundtrip_counterexample :
    csvEscape "a\nb" = "\"a b\""
    ∧ csvParseField (csvEscape "a\nb") = "a b"
    ∧ ("a b" : String) ≠ "a\nb" := by
  refine ⟨by decide, by decide, by decide⟩

/-- **C9 (amended).** Every field value containing the delimiter, the
quote character, or a newline is emitted quoted, with quotes doubled; the
sanitizer replaces each `\r?\n` match by a single space (rather than
preserving newline content), so every escaped field is newline-free and
each written row occupies exactly one output line; a standard CSV parse of
the emitted field recovers the original value exactly when the value
contains no newline (quote and delimiter content preserved), while a value
containing newlines parses back with its newlines collapsed to spaces. -/
theorem C9_csvEscape_single_line_roundtrip :
    (∀ v : String, '\n' ∉ (csvEscape v).data)
    ∧ (∀ (fields : List String), ((writeRowLine fields).data.count '\n') = 1)
    ∧ (∀ v : String, '\n' ∉ v.data → csvParseField (csvEscape v) = v) := by
  refine ⟨csvEscape_no_newline, ?_, ?_⟩
  · intro fields
    rw [writeRowLine, stringData_append]
    rw [List.count_append]
    have h0 : (joinComma (fields.map csvEscape)).data.count '\n' = 0 := by
      rw [List.count_eq_zero]
      apply joinComma_no_newline
      intro s hs
      obtain ⟨v, hv, rfl⟩ := List.mem_map.mp hs
      exact csvEscape_no_newline v
    rw [h0]
    decide
  · intro v hnl
    rw [csvEscape]
    by_cases hq : (v.data.contains ',' || v.data.contains '\n'
        || v.data.contains '"') = true
    · rw [if_pos hq]
      rw [stripNewlines_eq_self _ hnl]
      rw [csvParseField]
      have hcond : 2 ≤ (String.mk ('"' :: doubleQuotes v.data ++ ['"'])).data.length
          ∧ (String.mk ('"' :: doubleQuotes v.data ++ ['"'])).data.head? = some '"'
          ∧ (String.mk ('"' :: doubleQuotes v.data ++ ['"'])).data.getLast?
              = some '"' := by
      -- placeholder
        refine ⟨by simp, rfl, ?_⟩
        show (('"' :: doubleQuotes v.data) ++ ['"']).getLast? = some '"'
        exact List.getLast?_concat _
      rw [if_pos hcond]
      show String.mk (csvUnquoteChars ((doubleQuotes v.data ++ ['"']).dropLast)) = v
      rw [List.dropLast_concat]
      rw [csvUnquote_doubleQuotes, stringMk_data]
    · rw [if_neg hq]
      have hquote : '"' ∉ v.data := by
        intro hmem
        apply hq
        have : v.data.contains '"' = true := by
          simp [List.contains, List.elem_eq_mem, hmem]
        simp [this, hmem]
      rw [stripNewlines_eq_self _ hnl, doubleQuotes_eq_self _ hquote, stringMk_data]
      rw [csvParseField]
      rw [if_neg (fun hcond => hquote (memOfHeadEq hcond.2.1))]

theorem C9_csvEscape_single_line_roundtrip_witness :
    '\n' ∉ ("a,\"b\"" : String).data
    ∧ csvParseField (csvEscape "a,\"b\"") = "a,\"b\"" :=
  ⟨by decide, C9_csvEscape_single_line_roundtrip.2.2 "a,\"b\"" (by decide)⟩

theorem dayFromMonth_mono (l : Bool) (r : Int) (h0 : 0 ≤ r) (h1 : r ≤ 10) :
    dayFromMonth r l < dayFromMonth (r + 1) l := by
  interval_cases r <;> cases l <;> decide

theorem dayFromYear_succ (y : Int) :
    dayFromYear (y + 1) = dayFromYear y + 365 + leapDays (isLeapYear y) := by
  simp only [dayFromYear, leapDays, isLeapYear]
  split_ifs with hb
  · simp only [Bool.or_eq_true, Bool.and_eq_true, beq_iff_eq, bne_iff_ne] at hb
    omega
  · simp only [Bool.or_eq_true, Bool.and_eq_true, beq_iff_eq, bne_iff_ne,
      not_or, not_and, not_not] at hb
    omega

theorem leapDays_nonneg (l : Bool) : 0 ≤ leapDays l := by
  cases l <;> decide

theorem firstOfMonthDay_succ (M : Int) :
    firstOfMonthDay M < firstOfMonthDay (M + 1) := by
  have hr0 : 0 ≤ M % 12 := by omega
  have hr1 : M % 12 < 12 := by omega
  by_cases hcase : M % 12 ≤ 10
  · have hdiv : (M + 1) / 12 = M / 12 := by omega
    have hmod : (M + 1) % 12 = M % 12 + 1 := by omega
    simp only [firstOfMonthDay, hdiv, hmod]
    have := dayFromMonth_mono (isLeapYear (M / 12)) (M % 12) hr0 hcase
    omega
  · have hr11 : M % 12 = 11 := by omega
    have hdiv : (M + 1) / 12 = M / 12 + 1 := by omega
    have hmod : (M + 1) % 12 = 0 := by omega
    simp only [firstOfMonthDay, hdiv, hmod, hr11]
    have hstep := dayFromYear_succ (M / 12)
    have h11 : dayFromMonth 11 (isLeapYear (M / 12)) ≤ 335 := by
      cases (isLeapYear (M / 12)) <;> decide
    have h0 : dayFromMonth 0 (isLeapYear (M / 12 + 1)) = 0 := by
      cases (isLeapYear (M / 12 + 1)) <;> decide
    have hnn := leapDays_nonneg (isLeapYear (M / 12))
    omega

theorem firstOfMonthDay_strictMono : StrictMono firstOfMonthDay :=
  strictMono_int_of_lt_succ firstOfMonthDay_succ

theorem monthFromDayWithinYear_bounds (d : Int) (l : Bool) :
    0 ≤ monthFromDayWithinYear d l ∧ monthFromDayWithinYear d l < 12 := by
  simp only [monthFromDayWithinYear]
  split_ifs <;> omega

theorem makeDay_eq_firstOfMonthDay (y mo d : Int) :
    makeDay y mo d = firstOfMonthDay (12 * y + mo) + d - 1 := by
  have hdiv : (12 * y + mo) / 12 = y + mo / 12 := by omega
  have hmod : (12 * y + mo) % 12 = mo % 12 := by omega
  simp only [makeDay, firstOfMonthDay, hdiv, hmod]

theorem makeDay_yearMonthDay (N y mo d : Int)
    (h : yearMonthDayOfDay N = (y, mo, d)) :
    makeDay y mo d = N ∧ 0 ≤ mo ∧ mo < 12 := by
  simp only [yearMonthDayOfDay, Prod.mk.injEq] at h
  obtain ⟨hy, hmo, hd⟩ := h
  obtain ⟨hb0, hb1⟩ := monthFromDayWithinYear_bounds
    (N - dayFromYear (yearOfDay N)) (isLeapYear (yearOfDay N))
  subst hy
  refine ⟨?_, by omega, by omega⟩
  have hdiv : mo / 12 = 0 := by omega
  have hmod : mo % 12 = mo := by omega
  simp only [makeDay, hdiv, hmod, add_zero]
  rw [← hmo, ← hd]
  omega

theorem addMonthsEpoch_gt (t m : Int) (hm : 1 ≤ m) : t < addMonthsEpoch t m := by
  obtain ⟨y, mo, d, hymd⟩ : ∃ y mo d, yearMonthDayOfDay (t / 86400) = (y, mo, d) :=
    ⟨_, _, _, rfl⟩
  obtain ⟨hN, hmo0, hmo1⟩ := makeDay_yearMonthDay _ _ _ _ hymd
  have hlt : firstOfMonthDay (12 * y + mo) < firstOfMonthDay (12 * y + (mo + m)) :=
    firstOfMonthDay_strictMono (by omega)
  have he1 := makeDay_eq_firstOfMonthDay y mo d
  have he2 := makeDay_eq_firstOfMonthDay y (mo + m) d
  have hrepr : t = 86400 * (t / 86400) + t % 86400 ∧ 0 ≤ t % 86400
      ∧ t % 86400 < 86400 := by omega
  simp only [addMonthsEpoch, hymd]
  omega

theorem splitGo_spec (endEpoch m : Int) (hm : 1 ≤ m) :
    ∀ (cursor : Int), cursor < endEpoch →
      splitGo endEpoch m cursor ≠ []
      ∧ (splitGo endEpoch m cursor).head?.map Prod.fst = some cursor
      ∧ (splitGo endEpoch m cursor).getLast?.map Prod.snd = some endEpoch
      ∧ (splitGo endEpoch m cursor).Chain' (fun r s => r.2 = s.1)
      ∧ ∀ r ∈ splitGo endEpoch m cursor,
          r.1 < r.2 ∧ r.2 ≤ addMonthsEpoch r.1 m := by
  suffices H : ∀ (fuel : Nat) (cursor : Int), (endEpoch - cursor).toNat = fuel →
      cursor < endEpoch →
      splitGo endEpoch m cursor ≠ []
      ∧ (splitGo endEpoch m cursor).head?.map Prod.fst = some cursor
      ∧ (splitGo endEpoch m cursor).getLast?.map Prod.snd = some endEpoch
      ∧ (splitGo endEpoch m cursor).Chain' (fun r s => r.2 = s.1)
      ∧ ∀ r ∈ splitGo endEpoch m cursor,
          r.1 < r.2 ∧ r.2 ≤ addMonthsEpoch r.1 m from
    fun c hc => H _ c rfl hc
  intro fuel
  induction fuel using Nat.strong_induction_on with
  | _ fuel ih =>
    intro cursor hfuel hlt
    have hgt : cursor < addMonthsEpoch cursor m := addMonthsEpoch_gt cursor m hm
    have hminle : min (addMonthsEpoch cursor m) endEpoch ≤ endEpoch :=
      min_le_right _ _
    have hminle2 : min (addMonthsEpoch cursor m) endEpoch ≤ addMonthsEpoch cursor m :=
      min_le_left _ _
    have hmingt : cursor < min (addMonthsEpoch cursor m) endEpoch := lt_min hgt hlt
    rw [splitGo, if_pos hlt, if_neg (by omega)]
    by_cases hce : min (addMonthsEpoch cursor m) endEpoch < endEpoch
    · obtain ⟨hne, hhead, hlast, hchain, hr⟩ :=
        ih (endEpoch - min (addMonthsEpoch cursor m) endEpoch).toNat (by omega)
          (min (addMonthsEpoch cursor m) endEpoch) rfl hce
      obtain ⟨r0, rs, hsg⟩ := List.exists_cons_of_ne_nil hne
      refine ⟨by simp, by simp, ?_, ?_, ?_⟩
      · rw [hsg, List.getLast?_cons_cons, ← hsg]
        exact hlast
      · rw [List.chain'_cons']
        refine ⟨?_, hchain⟩
        intro b hb
        rw [hsg] at hhead
        simp only [List.head?_cons, Option.map_some] at hhead
        rw [hsg] at hb
        simp only [List.head?_cons, Option.mem_def, Option.some.injEq] at hb
        subst hb
        simpa using hhead.symm
      · intro r hrm
        rcases List.mem_cons.mp hrm with rfl | hrm2
        · exact ⟨hmingt, hminle2⟩
        · exact hr r hrm2
    · have hc2e : min (addMonthsEpoch cursor m) endEpoch = endEpoch := by omega
      have hnil : splitGo endEpoch m (min (addMonthsEpoch cursor m) endEpoch) = [] := by
        rw [splitGo, if_neg (by omega)]
      rw [hnil]
      refine ⟨by simp, by simp, by simp [hc2e], by simp, ?_⟩
      intro r hrm
      rcases List.mem_singleton.mp hrm with rfl
      exact ⟨hmingt, hminle2⟩

/-- With a valid batch size and a non-empty range, `splitIntoMonthlyRanges`
returns exactly the loop's ranges: the trailing fixup never fires, because
the loop always ends at `endEpoch`. -/
theorem splitIntoMonthlyRanges_eq_ok (startEpoch endEpoch monthsPerBatch : Int)
    (hm : 1 ≤ monthsPerBatch) (hlt : startEpoch < endEpoch) :
    splitIntoMonthlyRanges startEpoch endEpoch monthsPerBatch
      = .ok (splitGo endEpoch monthsPerBatch startEpoch) := by
  obtain ⟨hne, hhead, hlast, hchain, hr⟩ :=
    splitGo_spec endEpoch monthsPerBatch hm startEpoch hlt
  unfold splitIntoMonthlyRanges
  rw [if_neg (by omega), if_neg (by omega)]
  obtain ⟨r0, rs, hsg⟩ := List.exists_cons_of_ne_nil hne
  obtain ⟨last, hlastEq, hlast2⟩ : ∃ last,
      (splitGo endEpoch monthsPerBatch startEpoch).getLast? = some last
      ∧ last.2 = endEpoch := by
    cases h2 : (splitGo endEpoch monthsPerBatch startEpoch).getLast? with
    | none => rw [h2] at hlast; cases hlast
    | some l =>
      rw [h2] at hlast
      simp at hlast
      exact ⟨l, rfl, hlast⟩
  rw [hsg]
  rw [hsg] at hlastEq
  simp only [hlastEq]
  rw [if_neg (by omega)]

/-- **C3.** For every `startEpoch < endEpoch` and `monthsPerBatch ≥ 1`,
`splitIntoMonthlyRanges` returns a non-empty list of sub-ranges that
exactly partitions `[startEpoch, endEpoch)`: the first sub-range starts at
`startEpoch`, the last ends at `endEpoch`, each sub-range's end is the
next one's start (no gaps, no overlaps), every sub-range is non-empty, and
every sub-range's end is at most `monthsPerBatch` calendar months after
its start (in the sense of JavaScript `Date` month addition); a final
remainder shorter than `monthsPerBatch` months is kept. -/
theorem C3_splitIntoMonthlyRanges_partition
    (startEpoch endEpoch monthsPerBatch : Int)
    (hm : 1 ≤ monthsPerBatch) (hlt : startEpoch < endEpoch) :
    ∃ ranges : List (Int × Int),
      splitIntoMonthlyRanges startEpoch endEpoch monthsPerBatch = .ok ranges
      ∧ ranges ≠ []
      ∧ ranges.head?.map Prod.fst = some startEpoch
      ∧ ranges.getLast?.map Prod.snd = some endEpoch
      ∧ ranges.Chain' (fun r s => r.2 = s.1)
      ∧ ∀ r ∈ ranges, r.1 < r.2 ∧ r.2 ≤ addMonthsEpoch r.1 monthsPerBatch := by
  obtain ⟨hne, hhead, hlast, hchain, hr⟩ :=
    splitGo_spec endEpoch monthsPerBatch hm startEpoch hlt
  exact ⟨splitGo endEpoch monthsPerBatch startEpoch,
    splitIntoMonthlyRanges_eq_ok startEpoch endEpoch monthsPerBatch hm hlt,
    hne, hhead, hlast, hchain, hr⟩

theorem C3_splitIntoMonthlyRanges_partition_witness :
    (1 : Int) ≤ 1 ∧ (0 : Int) < 5
    ∧ (∃ ranges : List (Int × Int),
        splitIntoMonthlyRanges 0 5 1 = .ok ranges
        ∧ ranges ≠ []
        ∧ ranges.head?.map Prod.fst = some 0
        ∧ ranges.getLast?.map Prod.snd = some 5
        ∧ ranges.Chain' (fun r s => r.2 = s.1)
        ∧ ∀ r ∈ ranges, r.1 < r.2 ∧ r.2 ≤ addMonthsEpoch r.1 1) :=
  ⟨by norm_num, by norm_num,
    C3_splitIntoMonthlyRanges_partition 0 5 1 (by norm_num) (by norm_num)⟩

/-- **C10.** For every string whose JavaScript `Number(...)` conversion is
not NaN — including `"2017"` and the empty string, which converts to 0 —
`toUnixSeconds` returns the floor of that number interpreted directly as
epoch seconds and never attempts date parsing; `Date.parse` is consulted
only for non-numeric strings, and a string that is neither numeric nor a
parseable date makes `toUnixSeconds` throw. -/
theorem C10_toUnixSeconds_numeric_first (env : JsConv) (s : String) :
    (∀ q : ℚ, env.number s = some q →
      toUnixSecondsStr env s
        = { result := .ok ⌊q⌋, usedDateParse := false })
    ∧ (env.number s = none → ∀ ms : Int, env.dateParse s = some ms →
      toUnixSecondsStr env s
        = { result := .ok ⌊(ms : ℚ) / 1000⌋, usedDateParse := true })
    ∧ (env.number s = none → env.dateParse s = none →
      toUnixSecondsStr env s
        = { result := .error ("Unable to parse time value: " ++ s)
            usedDateParse := true })
    ∧ (env.number s = some 2017 →
      toUnixSecondsStr env s = { result := .ok 2017, usedDateParse := false })
    ∧ (env.number s = some 0 →
      toUnixSecondsStr env s = { result := .ok 0, usedDateParse := false }) := by
  refine ⟨?_, ?_, ?_, ?_, ?_⟩
  · intro q hq
    simp [toUnixSecondsStr, hq]
  · intro hn ms hms
    simp [toUnixSecondsStr, hn, hms]
  · intro hn hd
    simp [toUnixSecondsStr, hn, hd]
  · intro hq
    have : ⌊(2017 : ℚ)⌋ = 2017 := by norm_num
    simp [toUnixSecondsStr, hq, this]
  · intro hq
    have : ⌊(0 : ℚ)⌋ = 0 := by norm_num
    simp [toUnixSecondsStr, hq, this]

theorem C10_toUnixSeconds_numeric_first_witness :
    (JsConv.mk (fun t => if t = "" then some 0 else if t = "2017" then some 2017
        else none) (fun _ => none)).number "2017" = some 2017
    ∧ toUnixSecondsStr
        (JsConv.mk (fun t => if t = "" then some 0 else if t = "2017" then some 2017
          else none) (fun _ => none)) "2017"
      = { result := .ok 2017, usedDateParse := false } :=
  ⟨by decide,
    (C10_toUnixSeconds_numeric_first
      (JsConv.mk (fun t => if t = "" then some 0 else if t = "2017" then some 2017
        else none) (fun _ => none)) "2017").2.2.2.1 (by decide)⟩

theorem dedupInsert_ids (acc : List RedditComment) (c : RedditComment) :
    (dedupInsert acc c).map RedditComment.id
      = if acc.any (fun x => x.id = c.id) then acc.map RedditComment.id
        else acc.map RedditComment.id ++ [c.id] := by
  unfold dedupInsert
  split
  · next hany =>
    rw [List.map_map]
    apply List.map_congr_left
    intro x hx
    by_cases hxc : x.id = c.id
    · simp [hxc]
    · simp [hxc]
  · simp

theorem dedupInsert_elem (acc : List RedditComment) (c x : RedditComment)
    (hx : x ∈ dedupInsert acc c) : x ∈ acc ∨ x = c := by
  unfold dedupInsert at hx
  split at hx
  · obtain ⟨y, hy, hyx⟩ := List.mem_map.mp hx
    by_cases hyc : y.id = c.id
    · rw [if_pos hyc] at hyx
      exact Or.inr hyx.symm
    · rw [if_neg hyc] at hyx
      exact Or.inl (hyx ▸ hy)
  · rcases List.mem_append.mp hx with h | h
    · exact Or.inl h
    · exact Or.inr (List.mem_singleton.mp h)

theorem dedupFold_ids_mono (i : String) :
    ∀ (rest : List RedditComment) (acc : List RedditComment),
      i ∈ acc.map RedditComment.id →
      i ∈ (rest.foldl dedupInsert acc).map RedditComment.id := by
  intro rest
  induction rest with
  | nil =>
    intro acc h
    simpa using h
  | cons d ds ih =>
    intro acc h
    simp only [List.foldl_cons]
    apply ih
    rw [dedupInsert_ids]
    split
    · exact h
    · exact List.mem_append.mpr (Or.inl h)

theorem dedupFold_spec (comments : List RedditComment) :
    ∀ (acc : List RedditComment), (acc.map RedditComment.id).Nodup →
      ((comments.foldl dedupInsert acc).map RedditComment.id).Nodup
      ∧ (∀ c ∈ comments,
          c.id ∈ (comments.foldl dedupInsert acc).map RedditComment.id)
      ∧ (∀ x ∈ comments.foldl dedupInsert acc, x ∈ acc ∨ x ∈ comments) := by
  induction comments with
  | nil =>
    intro acc hnd
    exact ⟨hnd, by simp, fun x hx => Or.inl hx⟩
  | cons c rest ih =>
    intro acc hnd
    have hids := dedupInsert_ids acc c
    have hnd2 : ((dedupInsert acc c).map RedditComment.id).Nodup := by
      rw [hids]
      split
    -- present: ids unchanged
      · exact hnd
      · next hany =>
        have hcnot : c.id ∉ acc.map RedditComment.id := by
          intro hmem
          obtain ⟨y, hy, hyid⟩ := List.mem_map.mp hmem
          exact hany (List.any_eq_true.mpr ⟨y, hy, by simp [hyid]⟩)
        simp [List.nodup_append, hnd, hcnot]
    have hcid : c.id ∈ (dedupInsert acc c).map RedditComment.id := by
      rw [hids]
      split
      · next hany =>
        obtain ⟨y, hy, hyid⟩ := List.any_eq_true.mp hany
        simp only [decide_eq_true_eq] at hyid
        exact List.mem_map.mpr ⟨y, hy, hyid⟩
      · simp
    obtain ⟨h1, h2, h3⟩ := ih (dedupInsert acc c) hnd2
    refine ⟨h1, ?_, ?_⟩
    · intro d hd
      rcases List.mem_cons.mp hd with rfl | hd2
      · exact dedupFold_ids_mono d.id rest (dedupInsert acc d) hcid
      · exact h2 d hd2
    · intro x hx
      rcases h3 x hx with hx2 | hx2
      · rcases dedupInsert_elem acc c x hx2 with hx3 | hx3
        · exact Or.inl hx3
        · exact Or.inr (by simp [hx3])
      · exact Or.inr (List.mem_cons_of_mem c hx2)

theorem createdLE_trans : ∀ (a b c : RedditComment),
    (fun a b : RedditComment => decide (a.createdUtc ≤ b.createdUtc)) a b →
    (fun a b : RedditComment => decide (a.createdUtc ≤ b.createdUtc)) b c →
    (fun a b : RedditComment => decide (a.createdUtc ≤ b.createdUtc)) a c := by
  intro a b c hab hbc
  simp only [decide_eq_true_eq] at *
  omega

theorem createdLE_total : ∀ (a b : RedditComment),
    ((fun a b : RedditComment => decide (a.createdUtc ≤ b.createdUtc)) a b
      || (fun a b : RedditComment => decide (a.createdUtc ≤ b.createdUtc)) b a)
      = true := by
  intro a b
  simp only [Bool.or_eq_true, decide_eq_true_eq]
  omega

theorem sortByCreated_perm (l : List RedditComment) :
    (sortByCreated l).Perm l :=
  l.mergeSort_perm _

theorem sortByCreated_sorted (l : List RedditComment) :
    (sortByCreated l).Pairwise (fun a b => a.createdUtc ≤ b.createdUtc) := by
  have := @List.sorted_mergeSort _
    (fun a b : RedditComment => decide (a.createdUtc ≤ b.createdUtc))
    createdLE_trans createdLE_total l
  exact this.imp (fun h => by simpa using h)

theorem foldl_append_eq {α β : Type} (g : β → List α) :
    ∀ (rs : List β) (acc : List α),
      rs.foldl (fun a r => a ++ g r) acc = acc ++ (rs.map g).flatten := by
  intro rs
  induction rs with
  | nil => intro acc; simp
  | cons r rest ih =>
    intro acc
    simp only [List.foldl_cons, List.map_cons, List.flatten_cons, ih,
      List.append_assoc]

/-- **C8.** For every time range (`startEpoch < endEpoch`, batch size
≥ 1 month) and every source behaviour — the page oracle may return
overlapping ids across pages and sub-ranges — `fetchAll` succeeds and
returns a sequence in which each record id occurs at most once, every
fetched record's id occurs, every element comes from some fetched page,
and the sequence is sorted ascending (non-decreasing) by `createdUtc`. -/
theorem C8_fetchAll_dedup_sorted (page : Int → Int → List RedditComment)
    (startEpoch endEpoch monthsPerBatch : Int)
    (hm : 1 ≤ monthsPerBatch) (hlt : startEpoch < endEpoch) :
    ∃ (ranges : List (Int × Int)) (out : List RedditComment),
      splitIntoMonthlyRanges startEpoch endEpoch monthsPerBatch = .ok ranges
      ∧ fetchAll page startEpoch endEpoch monthsPerBatch = .ok out
      ∧ (out.map RedditComment.id).Nodup
      ∧ out.Pairwise (fun a b => a.createdUtc ≤ b.createdUtc)
      ∧ (∀ r ∈ ranges, ∀ c ∈ fetchRange (page r.2) r.1 r.2,
          c.id ∈ out.map RedditComment.id)
      ∧ (∀ x ∈ out, ∃ r ∈ ranges, x ∈ fetchRange (page r.2) r.1 r.2) := by
  have hok := splitIntoMonthlyRanges_eq_ok startEpoch endEpoch monthsPerBatch hm hlt
  refine ⟨splitGo endEpoch monthsPerBatch startEpoch,
    sortByCreated (dedupById
      ((splitGo endEpoch monthsPerBatch startEpoch).foldl
        (fun acc r => acc ++ fetchRange (page r.2) r.1 r.2) [])),
    hok, ?_, ?_, sortByCreated_sorted _, ?_, ?_⟩
  · rw [fetchAll, hok]
    rfl
  all_goals {
    have hconcat := foldl_append_eq (fun r : Int × Int => fetchRange (page r.2) r.1 r.2)
      (splitGo endEpoch monthsPerBatch startEpoch) []
    obtain ⟨hnd, hcov, hprov⟩ := dedupFold_spec
      ((splitGo endEpoch monthsPerBatch startEpoch).foldl
        (fun acc r => acc ++ fetchRange (page r.2) r.1 r.2) []) [] (by simp)
    have hperm := sortByCreated_perm (dedupById
      ((splitGo endEpoch monthsPerBatch startEpoch).foldl
        (fun acc r => acc ++ fetchRange (page r.2) r.1 r.2) []))
    first
    | exact ((hperm.map RedditComment.id).nodup_iff).mpr hnd
    | ( intro r hr c hc
        have hmem : c ∈ (splitGo endEpoch monthsPerBatch startEpoch).foldl
            (fun acc r => acc ++ fetchRange (page r.2) r.1 r.2) [] := by
          rw [hconcat]
          simp only [List.nil_append, List.mem_flatten]
          exact ⟨fetchRange (page r.2) r.1 r.2, List.mem_map.mpr ⟨r, hr, rfl⟩, hc⟩
        exact (hperm.map RedditComment.id).mem_iff.mpr (hcov c hmem) )
    | ( intro x hx
        have hx2 := hperm.mem_iff.mp hx
        rcases hprov x hx2 with hx3 | hx3
        · cases hx3
        · rw [hconcat] at hx3
          simp only [List.nil_append, List.mem_flatten] at hx3
          obtain ⟨l, hl, hxl⟩ := hx3
          obtain ⟨r, hr, rfl⟩ := List.mem_map.mp hl
          exact ⟨r, hr, hxl⟩ )
  }

theorem C8_fetchAll_dedup_sorted_witness :
    (1 : Int) ≤ 1 ∧ (0 : Int) < 5
    ∧ (∃ (ranges : List (Int × Int)) (out : List RedditComment),
        splitIntoMonthlyRanges 0 5 1 = .ok ranges
        ∧ fetchAll (fun _ _ => [RedditComment.mk "a" "b" 3 "p" "s"]) 0 5 1 = .ok out
        ∧ (out.map RedditComment.id).Nodup
        ∧ out.Pairwise (fun a b => a.createdUtc ≤ b.createdUtc)
        ∧ (∀ r ∈ ranges, ∀ c ∈ fetchRange
            ((fun _ _ => [RedditComment.mk "a" "b" 3 "p" "s"]) r.2) r.1 r.2,
            c.id ∈ out.map RedditComment.id)
        ∧ (∀ x ∈ out, ∃ r ∈ ranges, x ∈ fetchRange
            ((fun _ _ => [RedditComment.mk "a" "b" 3 "p" "s"]) r.2) r.1 r.2)) :=
  ⟨by norm_num, by norm_num,
    C8_fetchAll_dedup_sorted (fun _ _ => [RedditComment.mk "a" "b" 3 "p" "s"])
      0 5 1 (by norm_num) (by norm_num)⟩

end ClickupReddit
